import Mathlib

/-!
Verification of the pandorasbox in-memory VFS (package `vfs`, file `vfs.go`,
and the path-prefix helpers in `utils.go`) against its design specification.

The Go code is shallowly embedded: the mutable inode graph becomes an explicit
heap (an association list from inode number to inode), every façade operation
becomes a pure function from filesystem state to (result, new state), and the
two genuinely recursive operations whose termination is in question
(`fileStat`, `Walk`) are given explicit fuel.

The repository's `inode` package and the `vfs` package's lexical path helpers
(`Clean`, `Join`, `Split`, `Base`, `Dir`, `IsAbs`) are not part of the given
sources; they are modelled from the specification (§4.1, §4.2, §9) and marked
`Modelled from the spec:` below.  Everything else is transcribed from
`vfs/vfs.go` and `utils.go`.
-/

namespace PBox

/-! ## Lexical path-string helpers

Go `strings`/`path` functions are re-implemented over `List Char`.  Go
compares strings byte-wise; on UTF-8 this coincides with code-point-wise
lexicographic comparison, which is what `lexLe` implements. -/

/-- Split a character list on a separator character; mirrors Go
`strings.Split` with a one-character separator (always returns at least one
group, keeps empty groups). -/
def chSplit (sep : Char) : List Char → List (List Char)
  | [] => [[]]
  | c :: rest =>
    match chSplit sep rest with
    | [] => [[]]
    | g :: gs => if c = sep then [] :: g :: gs else (c :: g) :: gs

/-- Join character-list segments with a separator character. -/
def chJoin (sep : Char) : List (List Char) → List Char
  | [] => []
  | [g] => g
  | g :: gs => g ++ sep :: chJoin sep gs

/-- Byte/code-point lexicographic `≤` on strings, as Go compares strings. -/
def lexLe : List Char → List Char → Bool
  | [], _ => true
  | _ :: _, [] => false
  | a :: as, b :: bs => if a = b then lexLe as bs else decide (a < b)

/-- `IsAbs`: the path starts with `/`.
Modelled from the spec: §4.1 path grammar (helper not under `src/`). -/
def isAbs (p : String) : Bool :=
  match p.data with
  | c :: _ => c = '/'
  | [] => false

/-- Go `strings.TrimLeft(name, "/")`: drop all leading slashes. -/
def trimSlash (s : String) : String :=
  ⟨s.data.dropWhile (· = '/')⟩

/-- `Clean`: lexical path cleaning — collapse `//`, resolve `.` and `..`
segments without touching the filesystem; `..` in absolute paths never
escapes root.  Modelled from the spec: §4.1 and §9 "Path cleaning vs
resolution" (helper not under `src/`); matches Go `path.Clean`. -/
def clean (p : String) : String :=
  if p.data = [] then "." else
  let abs := isAbs p
  let comps := (chSplit '/' p.data).filter (fun s => s ≠ [] ∧ s ≠ ['.'])
  let out := comps.foldl
    (fun st c =>
      if c = ['.', '.'] then
        match st with
        | [] => if abs then [] else [c]
        | top :: rest => if top = ['.', '.'] then c :: top :: rest else rest
      else c :: st) []
  let segs := out.reverse
  if abs then
    if segs = [] then "/" else ⟨'/' :: chJoin '/' segs⟩
  else
    if segs = [] then "." else ⟨chJoin '/' segs⟩

/-- `Join`: join two path elements and clean the result.
Modelled from the spec: §4.1 (helper not under `src/`); matches Go
`path.Join` restricted to two arguments. -/
def join (a b : String) : String :=
  if a = "" then (if b = "" then "" else clean b)
  else clean ⟨a.data ++ '/' :: b.data⟩

/-- `Split`: split a path after the final slash; the directory part keeps its
trailing slash.  Modelled from the spec: §4.1 (helper not under `src/`);
matches Go `path.Split`. -/
def split (p : String) : String × String :=
  let r := p.data.reverse
  (⟨(r.dropWhile (· ≠ '/')).reverse⟩, ⟨(r.takeWhile (· ≠ '/')).reverse⟩)

/-- `Base`: final element of a path.  Modelled from the spec: §4.4 stat
results carry a basename (helper not under `src/`); matches Go `path.Base`. -/
def base (p : String) : String :=
  if p.data = [] then "." else
  let r := p.data.reverse.dropWhile (· = '/')
  if r = [] then "/" else ⟨(r.takeWhile (· ≠ '/')).reverse⟩

/-- `Dir`: directory part of a path, cleaned.  Modelled from the spec: §4.1
(helper not under `src/`); matches Go `path.Dir`. -/
def dirOf (p : String) : String :=
  clean (split p).1

/-- `inode.Abs(cwd, name)`: absolutize a path against a working directory.
Modelled from the spec: §4.4 "Resolve, then assign" operations absolutize
relative paths against the working directory (the `inode` package is not
under `src/`). -/
def iAbs (cwd name : String) : String :=
  if isAbs name then clean name else join cwd name

/-- Path segments for resolution: the non-empty `/`-separated components. -/
def pathSegs (p : String) : List String :=
  ((chSplit '/' p.data).filter (fun s => s ≠ [])).map (fun l => ⟨l⟩)

/-! ## Error model

Go errors collapsed to their kinds (§7): the code returns `syscall.*` values,
`os.Err*` sentinels, and ad-hoc `errors.New` messages; claims are stated at
kind level.  `Err.fuel` is a model artifact marking fuel exhaustion of a
fueled function, and `Err.oob` marks a Go run-time panic (index out of range
or nil-pointer dereference). -/

inductive Err where
  | enoent      -- NO_SUCH_ENTRY: syscall.ENOENT / "no such entry"
  | eexist      -- EXISTS: syscall.EEXIST / os.ErrExist
  | enotdir     -- NOT_A_DIRECTORY
  | eisdir      -- IS_DIRECTORY: syscall.EISDIR
  | enotempty   -- NOT_EMPTY: "directory not empty"
  | eperm       -- PERMISSION: os.ErrPermission
  | errClosed   -- os.ErrClosed ("file already closed")
  | einval      -- INVALID: os.ErrInvalid
  | eloop       -- LOOP
  | internal    -- INTERNAL
  | fuel        -- model artifact: fuel exhausted
  | oob         -- model artifact: Go panic (index / nil dereference)
deriving DecidableEq, Repr

/-- A Go error value as returned by the façade: either a bare error or an
`os.PathError{Op, Path, Err}`. -/
inductive GErr where
  | plain (e : Err)
  | path (op p : String) (e : Err)
deriving DecidableEq, Repr

/-! ## Mode and flag constants

`os.FileMode` type bits and the open flags.  The `absfs` package is part of
the repository but not under `src/`; its constants are modelled from the
spec (§4.4 flag bitset) with the standard Go/absfs values. -/

def modeDir : Nat := 2147483648        -- os.ModeDir = 1 << 31
def modeSymlink : Nat := 134217728     -- os.ModeSymlink = 1 << 27

def oRDONLY : Nat := 0
def oWRONLY : Nat := 1
def oRDWR : Nat := 2
def oACCESS : Nat := 3                 -- absfs.O_ACCESS access-mode mask
def oCREATE : Nat := 64                -- os.O_CREATE
def oEXCL : Nat := 128                 -- os.O_EXCL
def oTRUNC : Nat := 512                -- os.O_TRUNC
def oAPPEND : Nat := 1024              -- os.O_APPEND / absfs.O_APPEND
def osALLR : Nat := 292                -- absfs.OS_ALL_R = 0444
def osALLW : Nat := 146                -- absfs.OS_ALL_W = 0222

/-! ## Inodes and the heap -/

/-- An inode (the `inode.Inode` fields the claims observe; owner ids and
timestamps are carried by the Go struct but inspected by no claim).
`dir` is the ordered name-to-inode entry list, including `.` and `..` for
directories. -/
structure Inode where
  ino : Nat
  mode : Nat
  size : Int
  dir : List (String × Nat)
deriving DecidableEq, Repr

def Inode.isDir (n : Inode) : Bool := n.mode &&& modeDir ≠ 0

def Inode.isSymlink (n : Inode) : Bool := n.mode &&& modeSymlink ≠ 0

/-- The inode heap: Go's pointer graph flattened into an association list
from inode number to inode. -/
abbrev Heap := List (Nat × Inode)

def hGet : Heap → Nat → Option Inode
  | [], _ => none
  | p :: t, i => if p.1 = i then some p.2 else hGet t i

def hUpd (h : Heap) (i : Nat) (f : Inode → Inode) : Heap :=
  h.map (fun p => if p.1 = i then (p.1, f p.2) else p)

/-- Directory-entry lookup by name (first match, as a Go map read). -/
def dGet : List (String × Nat) → String → Option Nat
  | [], _ => none
  | e :: t, s => if e.1 = s then some e.2 else dGet t s

/-- `inode.Link(name, child)`: insert a directory entry; fails EXISTS if the
name is already present.  Modelled from the spec: §4.1 "Linking / unlinking"
(the `inode` package is not under `src/`). -/
def hLink (h : Heap) (parent : Nat) (name : String) (child : Nat) : Except Err Heap :=
  match hGet h parent with
  | none => .error .oob
  | some node =>
    match dGet node.dir name with
    | some _ => .error .eexist
    | none => .ok (hUpd h parent (fun n => { n with dir := n.dir ++ [(name, child)] }))

/-- `inode.Unlink(name)`: remove a directory entry; fails NO_SUCH_ENTRY if
absent.  Modelled from the spec: §4.1 (the `inode` package is not under
`src/`). -/
def hUnlink (h : Heap) (parent : Nat) (name : String) : Except Err Heap :=
  match hGet h parent with
  | none => .error .oob
  | some node =>
    match dGet node.dir name with
    | none => .error .enoent
    | some _ => .ok (hUpd h parent (fun n => { n with dir := n.dir.filter (fun e => e.1 ≠ name) }))

/-- `inode.UnlinkAll()`: recursively unlink the subtree below an inode in
post-order.  Modelled from the spec: §4.1 "Remove / RemoveAll" (the `inode`
package is not under `src/`).  Fueled; callers pass a bound that exceeds the
tree depth. -/
def unlinkAllF : Nat → Heap → Nat → Heap
  | 0, h, _ => h
  | fuel + 1, h, i =>
    match hGet h i with
    | none => h
    | some node =>
      let kids := node.dir.filter (fun e => e.1 ≠ "." ∧ e.1 ≠ "..")
      let h1 := kids.foldl (fun acc e => unlinkAllF fuel acc e.2) h
      hUpd h1 i (fun n => { n with dir := [] })

/-! ## Filesystem state -/

/-- A sealed payload record (`sealedFile`).  The ciphertext/key pair of the
external crypto layer (`memguard`) is abstracted to presence flags, and the
`f` back-pointer to the most recent open `File` handle is kept as the inode
number of that handle's node. -/
structure SealedFile where
  f : Option Nat
  ciphertext : Option Unit
  key : Option Unit
deriving DecidableEq, Repr

def emptySealed : SealedFile := ⟨none, none, none⟩

/-- The `FileSystem` struct of `vfs.go` (the `sync.RWMutex` and `Tempdir`
are not modelled; no claim observes them).  `data` is the dense payload
array indexed by inode number — `none` entries are nil pointers. -/
structure FS where
  umask : Nat
  heap : Heap
  rootIno : Nat
  cwd : String
  dirIno : Nat
  nextIno : Nat
  symlinks : List (Nat × String)
  data : List (Option SealedFile)
deriving DecidableEq, Repr

/-- Go map read with zero value: `fs.symlinks[ino]` returns `""` when the
key is absent. -/
def symGet : List (Nat × String) → Nat → String
  | [], _ => ""
  | p :: t, i => if p.1 = i then p.2 else symGet t i

/-- Go slice read `l[i]`; `none` is the out-of-range panic case. -/
def lGet {α : Type} : List α → Nat → Option α
  | [], _ => none
  | a :: _, 0 => some a
  | _ :: t, n + 1 => lGet t n

/-- Go slice write `l[i] = b` (in-range by construction at all call sites). -/
def lSet {α : Type} : List α → Nat → α → List α
  | [], _, _ => []
  | _ :: t, 0, b => b :: t
  | a :: t, n + 1, b => a :: lSet t n b

/-- Go map assignment `fs.symlinks[ino] = target`. -/
def symSet (l : List (Nat × String)) (i : Nat) (t : String) : List (Nat × String) :=
  (i, t) :: l.filter (fun p => p.1 ≠ i)

/-- `NewFS`: umask 0755, root directory inode (first allocated number, 1)
with self-linking `.` and `..`, working directory `/`, payload array of two
nil slots. -/
def NewFS : FS :=
  { umask := 493  -- 0o755
    heap := [(1, { ino := 1, mode := modeDir ||| 493, size := 0,
                   dir := [(".", 1), ("..", 1)] })]
    rootIno := 1
    cwd := "/"
    dirIno := 1
    nextIno := 1
    symlinks := []
    data := [none, none] }

/-! ## Path resolution -/

/-- Walk a segment list down the heap.  Modelled from the spec: §4.1 "Path
resolution" steps 2–4 (the `inode` package's `Resolve` is not under `src/`):
at each segment, fail NOT_A_DIRECTORY if the current inode is not a
directory, NO_SUCH_ENTRY if the entry is absent; the final inode is returned
without following a trailing symlink. -/
def resolveSegs (h : Heap) : Nat → List String → Except Err Nat
  | cur, [] => .ok cur
  | cur, s :: rest =>
    match hGet h cur with
    | none => .error .oob
    | some node =>
      if node.isDir then
        match dGet node.dir s with
        | none => .error .enoent
        | some child => resolveSegs h child rest
      else .error .enotdir

/-- `wd.Resolve(p)`: resolve `p` (its non-empty segments) starting from the
inode `start`. -/
def resolve (h : Heap) (start : Nat) (p : String) : Except Err Nat :=
  resolveSegs h start (pathSegs p)

/-- The starting inode the façade picks before resolving: root for absolute
names, the current directory otherwise (`vfs.go:175-178` and analogues). -/
def wdOf (fs : FS) (name : String) : Nat :=
  if isAbs name then fs.rootIno else fs.dirIno

/-! ## OpenFile (`vfs.go:156-254`) -/

/-- The handle `OpenFile` returns (`File` minus the `fs`/`data` back
references, which are recoverable from `ino`). -/
structure FileH where
  name : String
  flags : Nat
  ino : Nat
  offset : Int
deriving DecidableEq, Repr

/-- The permission gate of `vfs.go:235-239`: requested access denied by the
any-of mode bits. -/
def permDenied (access mode : Nat) : Bool :=
  (access == oRDONLY && mode &&& osALLR == 0) ||
  (access == oWRONLY && mode &&& osALLW == 0) ||
  (access == oRDWR && mode &&& (osALLW ||| osALLR) == 0)

/-- Common tail of `OpenFile` (`vfs.go:232-253`): payload-slot fetch, the
permission check (skipped when `CREATE`), and handle construction with the
truncate/append/`data.f` effects. -/
def openTail (fs : FS) (name : String) (flag : Nat)
    (create truncate appendFile : Bool) (nodeIno : Nat) : Except GErr FileH × FS :=
  match lGet fs.data nodeIno with
  | none => (.error (.plain .oob), fs)
  | some dslot =>
    match hGet fs.heap nodeIno with
    | none => (.error (.plain .oob), fs)
    | some node =>
      if ¬create ∧ permDenied (flag &&& oACCESS) node.mode then
        (.error (.path "open" name .eperm), fs)
      else
        match dslot with
        | none => (.ok ⟨name, flag, nodeIno, 0⟩, fs)
        | some sf =>
          let fs1 := if truncate then
              { fs with heap := hUpd fs.heap nodeIno (fun n => { n with size := 0 }) }
            else fs
          let off : Int := if appendFile then
              ((hGet fs1.heap nodeIno).map (·.size)).getD 0
            else 0
          (.ok ⟨name, flag, nodeIno, off⟩,
           { fs1 with data := lSet fs1.data nodeIno (some { sf with f := some nodeIno }) })

/-- `OpenFile` (`vfs.go:156-254`).  The literal names `/` and `.` are served
before any flag or permission processing. -/
def OpenFile (fs : FS) (name : String) (flag perm : Nat) : Except GErr FileH × FS :=
  if name = "/" then
    match lGet fs.data fs.rootIno with
    | none => (.error (.plain .oob), fs)
    | some _ => (.ok ⟨name, flag, fs.rootIno, 0⟩, fs)
  else
  let appendFile := flag &&& oAPPEND ≠ 0
  if name = "." then
    match lGet fs.data fs.dirIno with
    | none => (.error (.plain .oob), fs)
    | some none => (.ok ⟨name, flag, fs.dirIno, 0⟩, fs)
    | some (some sf) =>
      let off : Int := if appendFile then ((hGet fs.heap fs.dirIno).map (·.size)).getD 0 else 0
      (.ok ⟨name, flag, fs.dirIno, off⟩,
       { fs with data := lSet fs.data fs.dirIno (some { sf with f := some fs.dirIno }) })
  else
  let wd := wdOf fs name
  let res := resolve fs.heap wd name
  let dir1 := clean (split name).1
  let filename := (split name).2
  match resolve fs.heap wd dir1 with
  | .error e => (.error (.plain e), fs)
  | .ok parentIno =>
    let create := flag &&& oCREATE ≠ 0
    let truncate := flag &&& oTRUNC ≠ 0
    match res with
    | .ok nodeIno =>
      if create ∧ flag &&& oEXCL ≠ 0 then (.error (.path "open" name .eexist), fs)
      else
        match hGet fs.heap nodeIno with
        | none => (.error (.plain .oob), fs)
        | some node =>
          if node.isDir ∧ (flag &&& oACCESS ≠ oRDONLY ∨ truncate) then
            (.error (.path "open" name .eisdir), fs)
          else if truncate then
            match lGet fs.data nodeIno with
            | none => (.error (.plain .oob), fs)
            | some none => (.error (.plain .oob), fs)
            | some (some sf) =>
              openTail { fs with
                  data := lSet fs.data nodeIno (some { sf with ciphertext := none, key := none }) }
                name flag create true appendFile nodeIno
          else openTail fs name flag create false appendFile nodeIno
    | .error _ =>
      if ¬(flag &&& oCREATE ≠ 0) then (.error (.path "open" name .enoent), fs)
      else
        let newIno := fs.nextIno + 1
        let node : Inode := ⟨newIno, fs.umask &&& perm, 0, []⟩
        match hLink (fs.heap ++ [(newIno, node)]) parentIno filename newIno with
        | .error e => (.error (.path "open" name e), fs)
        | .ok h2 =>
          openTail { fs with
              nextIno := newIno
              heap := h2
              data := fs.data ++ [some emptySealed] }
            name flag true truncate appendFile newIno

/-! ## Truncate (`vfs.go:256-323`) -/

/-- The payload rewrite both truncate branches perform (`vfs.go:289-322`):
re-encrypt the sliced or zero-extended plaintext under a fresh key and set
the node size to the new length (`file.f.updateSize()`; the `File` handle
methods are not under `src/`, the size update is modelled from the spec,
invariant I6).  Ciphertext bytes and keys of the external crypto layer are
abstracted to presence flags. -/
def truncPayload (fs : FS) (dataIdx fIno : Nat) (sf : SealedFile) (size : Int) :
    Except GErr Unit × FS :=
  (.ok (),
   { fs with
     heap := hUpd fs.heap fIno (fun n => { n with size := size }),
     data := lSet fs.data dataIdx (some { sf with ciphertext := some (), key := some () }) })

/-- `Truncate` (`vfs.go:256-323`).  A negative size fails immediately with
`os.ErrClosed` wrapped in a `PathError` and no state change. -/
def Truncate (fs : FS) (name : String) (size : Int) : Except GErr Unit × FS :=
  if size < 0 then (.error (.path "truncate" name .errClosed), fs)
  else
    let p := iAbs fs.cwd name
    match resolve fs.heap fs.rootIno p with
    | .error e => (.error (.plain e), fs)
    | .ok childIno =>
      match lGet fs.data childIno with
      | none => (.error (.plain .oob), fs)
      | some none => (.error (.plain .oob), fs)
      | some (some sf) =>
        match sf.f with
        | none => (.error (.plain .oob), fs)
        | some fIno =>
          match hGet fs.heap fIno with
          | none => (.error (.plain .oob), fs)
          | some fnode =>
            if fnode.size ≠ 0 then
              match sf.key with
              | none => (.error (.plain .oob), fs)
              | some _ => truncPayload fs childIno fIno sf size
            else if size = 0 then (.ok (), fs)
            else truncPayload fs childIno fIno sf size

/-! ## Mkdir / MkdirAll (`vfs.go:325-372`) -/

/-- `Mkdir` (`vfs.go:325-356`).  Note both `parent.Link(filename, child)`
and `child.Link("..", parent)` discard their error (lines 351-352), and
`NewDir` is modelled from the spec §4.2: fresh inode with the directory bit
and self-linking `.`/`..` bindings. -/
def Mkdir (fs : FS) (name : String) (perm : Nat) : Except GErr Unit × FS :=
  let wd := wdOf fs name
  let abs := if isAbs name then name else join fs.cwd name
  if (resolve fs.heap wd name).isOk then (.error (.path "mkdir" name .eexist), fs)
  else
    let dir1 := clean (split abs).1
    let filename := (split abs).2
    let parentR : Except GErr Nat :=
      if dir1 = "/" then .ok fs.rootIno
      else
        match resolve fs.heap fs.rootIno (trimSlash dir1) with
        | .error e => .error (.path "mkdir" dir1 e)
        | .ok p => .ok p
    match parentR with
    | .error e => (.error e, fs)
    | .ok parentIno =>
      let newIno := fs.nextIno + 1
      let child : Inode := ⟨newIno, modeDir ||| (fs.umask &&& perm), 0,
                            [(".", newIno), ("..", newIno)]⟩
      let h0 := fs.heap ++ [(newIno, child)]
      let h1 := match hLink h0 parentIno filename newIno with
        | .ok h => h
        | .error _ => h0
      let h2 := match hLink h1 newIno ".." parentIno with
        | .ok h => h
        | .error _ => h1
      (.ok (), { fs with nextIno := newIno, heap := h2, data := fs.data ++ [some emptySealed] })

/-- `MkdirAll` (`vfs.go:358-372`): `Mkdir` on every successive prefix of the
absolutized path; each `Mkdir` return value is discarded and the function
always returns nil. -/
def MkdirAll (fs : FS) (name : String) (perm : Nat) : Except GErr Unit × FS :=
  let name1 := iAbs fs.cwd name
  let step := fun (acc : String × FS) (pseg : String) =>
    let p := if pseg = "" then "/" else pseg
    let path := join acc.1 p
    (path, (Mkdir acc.2 path perm).2)
  let r := ((chSplit '/' name1.data).map (fun l => (⟨l⟩ : String))).foldl step ("", fs)
  (.ok (), r.2)

/-! ## RemoveAll (`vfs.go:405-428`) -/

/-- `RemoveAll` (`vfs.go:405-428`): resolve the name (an error here is
returned as a `PathError`, so a missing path is an error), resolve the
parent, recursively unlink the subtree (`child.UnlinkAll()`), then unlink
the top name from the parent, returning `parent.Unlink`'s bare result. -/
def RemoveAll (fs : FS) (name : String) : Except GErr Unit × FS :=
  let wd := wdOf fs name
  let abs := if isAbs name then name else join fs.cwd name
  match resolve fs.heap wd name with
  | .error e => (.error (.path "remove" name e), fs)
  | .ok childIno =>
    let dir1 := clean (split abs).1
    let filename := (split abs).2
    let parentR : Except GErr Nat :=
      if dir1 = "/" then .ok fs.rootIno
      else
        match resolve fs.heap fs.rootIno (trimSlash dir1) with
        | .error e => .error (.path "remove" dir1 e)
        | .ok p => .ok p
    match parentR with
    | .error e => (.error e, fs)
    | .ok parentIno =>
      let h1 := unlinkAllF fs.heap.length fs.heap childIno
      match hUnlink h1 parentIno filename with
      | .error e => (.error (.plain e), { fs with heap := h1 })
      | .ok h2 => (.ok (), { fs with heap := h2 })

/-! ## Stat (`vfs.go:486-513`) -/

/-- The `FileInfo` a stat returns: basename plus the inode. -/
structure FileInfo where
  fname : String
  node : Inode
deriving DecidableEq, Repr

/-- `fileStat` (`vfs.go:487-501`), with explicit fuel: absolutize, trim
leading slashes (unless the result is `/`), resolve from root, and — if the
resolved inode is a symlink — recurse on the stored target against the
directory of the current name.  The Go function recurses unconditionally
(`// TODO: Avoid cyclical links`); `none` means the recursion has not
produced a result within `fuel` unfoldings. -/
def fileStatF : Nat → FS → String → String → Option (Except GErr Inode)
  | 0, _, _, _ => none
  | fuel + 1, fs, cwd, name =>
    let name1 := iAbs cwd name
    let name2 := if name1 = "/" then name1 else trimSlash name1
    match resolve fs.heap fs.rootIno name2 with
    | .error e => some (.error (.path "stat" name2 e))
    | .ok nIno =>
      match hGet fs.heap nIno with
      | none => some (.error (.plain .oob))
      | some node =>
        if node.isSymlink then fileStatF fuel fs (dirOf name2) (symGet fs.symlinks node.ino)
        else some (.ok node)

/-- `Stat` (`vfs.go:503-513`), fueled like `fileStat`. -/
def StatF (fuel : Nat) (fs : FS) (name : String) : Option (Except GErr FileInfo) :=
  if name = "/" then
    match hGet fs.heap fs.rootIno with
    | none => some (.error (.plain .oob))
    | some root => some (.ok ⟨"/", root⟩)
  else
    (fileStatF fuel fs fs.cwd name).map (fun r => r.map (fun node => ⟨base name, node⟩))

/-! ## Readlink / Symlink (`vfs.go:545-606`) -/

/-- `Readlink` (`vfs.go:545-561`): resolve (from root, leading slashes
trimmed; `/` maps to the root inode) and return the symlink-table entry for
the inode — the Go map read yields `""` when the inode has no entry, and no
symlink-ness check is performed. -/
def Readlink (fs : FS) (name : String) : Except GErr String :=
  if name = "/" then .ok (symGet fs.symlinks fs.rootIno)
  else
    match resolve fs.heap fs.rootIno (trimSlash name) with
    | .error e => .error (.plain e)
    | .ok nIno =>
      match hGet fs.heap nIno with
      | none => .error (.plain .oob)
      | some node => .ok (symGet fs.symlinks node.ino)

/-- `Symlink(oldname, newname)` (`vfs.go:563-606`): if `newname` exists and
is not a symlink, fail EXISTS; resolve `oldname` (fail NO_SUCH_ENTRY if it
does not resolve); then either retarget the existing symlink or allocate a
fresh inode with the symlink bit, link it under `newname`'s parent, and
record `oldname` verbatim in the symlink table.  (No payload record is
appended for the new inode.) -/
def Symlink (fs : FS) (oldname newname : String) : Except GErr Unit × FS :=
  let wd := wdOf fs newname
  let newRes := resolve fs.heap wd newname
  match newRes with
  | .ok newIno =>
    match hGet fs.heap newIno with
    | none => (.error (.plain .oob), fs)
    | some newNode =>
      if ¬newNode.isSymlink then (.error (.path "symlink" newname .eexist), fs)
      else
        match resolve fs.heap wd oldname with
        | .error _ => (.error (.path "symlink" oldname .enoent), fs)
        | .ok oldIno =>
          match hGet fs.heap oldIno with
          | none => (.error (.plain .oob), fs)
          | some oldNode =>
            (.ok (),
             { fs with
               heap := hUpd fs.heap newIno (fun n => { n with mode := oldNode.mode ||| modeSymlink }),
               symlinks := symSet fs.symlinks newIno oldname })
  | .error _ =>
    match resolve fs.heap wd oldname with
    | .error _ => (.error (.path "symlink" oldname .enoent), fs)
    | .ok oldIno =>
      match hGet fs.heap oldIno with
      | none => (.error (.plain .oob), fs)
      | some oldNode =>
        let dir1 := clean (split newname).1
        let filename := (split newname).2
        match resolve fs.heap wd dir1 with
        | .error e => (.error (.plain e), fs)
        | .ok parentIno =>
          let newIno := fs.nextIno + 1
          let node : Inode := ⟨newIno, oldNode.mode ||| modeSymlink, 0, []⟩
          match hLink (fs.heap ++ [(newIno, node)]) parentIno filename newIno with
          | .error e =>
            -- no SubIno rollback here (unlike OpenFile): the counter stays bumped
            (.error (.path "symlink" newname e),
             { fs with nextIno := newIno, heap := fs.heap ++ [(newIno, node)] })
          | .ok h2 =>
            (.ok (),
             { fs with
               nextIno := newIno
               heap := h2
               symlinks := symSet fs.symlinks newIno oldname })

/-! ## Walk (`vfs.go:608-655`)

The loop pops a path from a stack, stats it, (for directories) opens it,
reads its entry names, sorts them descending and pushes them (skipping `.`
and `..`), then invokes the visitor; a non-nil visitor (or stat/open) error
terminates the walk.  The stack is modelled head-as-top, so Go's
`append`/pop-from-end becomes cons/uncons; the loop carries fuel because
`Stat` follows symlinks and a directory symlink cycle makes the loop itself
unbounded.  Visitor calls are recorded in a trace so that the visit order is
a theorem, not an annotation. -/

/-- Insertion of a string into a sorted list under a boolean comparator. -/
def insBy (le : String → String → Bool) (x : String) : List String → List String
  | [] => [x]
  | y :: ys => if le x y then x :: y :: ys else y :: insBy le x ys

/-- Insertion sort under a boolean comparator; with a total comparator this
is the unique sorted rearrangement, hence the result of Go's `sort.Sort`. -/
def sortBy (le : String → String → Bool) (l : List String) : List String :=
  l.foldr (insBy le) []

/-- Go string `≤` (byte-wise, equivalently code-point-wise). -/
def strLe (a b : String) : Bool := lexLe a.data b.data

/-- The comparator of `sort.Reverse(sort.StringSlice(names))`. -/
def strGe (a b : String) : Bool := lexLe b.data a.data

/-- A visitor (`filepath.WalkFunc`; the `err` argument is always nil at the
call site, `vfs.go:648`). -/
abbrev WalkFn := String → FileInfo → Option GErr

/-- Result of a walk: final error (if any), the trace of visited paths in
visit order, and the final state. -/
structure WRes where
  err : Option GErr
  trace : List String
  fs : FS
deriving DecidableEq, Repr

/-- The directory step of one loop iteration (`vfs.go:627-637`): for a
directory, `fs.Open(path)` then `Readdirnames(-1)`.  `Readdirnames(-1)` is a
`File` method not under `src/`; modelled from the spec §6: all entry names
excluding `.` and `..`, in insertion order.  `f.Close()` on a read handle is
a no-op for the modelled state.  The descending sort of `vfs.go:639` happens
at the push site in `walkFuel`. -/
def walkStep (fs : FS) (path : String) (info : FileInfo) :
    Except GErr (List String) × FS :=
  if info.node.isDir then
    match OpenFile fs path 0 0 with
    | (.error e, fs1) => (.error e, fs1)
    | (.ok fh, fs1) =>
      match hGet fs1.heap fh.ino with
      | none => (.error (.plain .oob), fs1)
      | some n2 =>
        ((.ok ((n2.dir.map Prod.fst).filter (fun s => s ≠ "." ∧ s ≠ ".."))), fs1)
  else (.ok [], fs)

/-- The push loop (`vfs.go:640-645`): push `Join(path, p)` for each name,
skipping `.` and `..`; head-as-top, so pushing the descending list leaves
the smallest name on top. -/
def walkPush (path : String) (st : List String) (names : List String) : List String :=
  names.foldl (fun acc p => if p = ".." ∨ p = "." then acc else join path p :: acc) st

/-- The `Walk` loop (`vfs.go:620-653`), fueled per iteration; `Stat` gets
the current fuel as its hop bound. -/
def walkFuel : Nat → FS → WalkFn → List String → WRes
  | _, fs, _, [] => ⟨none, [], fs⟩
  | 0, fs, _, _ :: _ => ⟨some (.plain .fuel), [], fs⟩
  | fuel + 1, fs, fn, path :: stack =>
    match StatF (fuel + 1) fs path with
    | none => ⟨some (.plain .fuel), [], fs⟩
    | some (.error e) => ⟨some e, [], fs⟩
    | some (.ok info) =>
      match walkStep fs path info with
      | (.error e, fs1) => ⟨some e, [], fs1⟩
      | (.ok names, fs1) =>
        let stack1 := walkPush path stack (sortBy strGe names)
        match fn path info with
        | some e => ⟨some e, [path], fs1⟩
        | none =>
          let r := walkFuel fuel fs1 fn stack1
          ⟨r.err, path :: r.trace, r.fs⟩

/-- `Walk(name, fn)`: the loop started on the singleton stack `[name]`. -/
def WalkF (fuel : Nat) (fs : FS) (name : String) (fn : WalkFn) : WRes :=
  walkFuel fuel fs fn [name]

/-- Result of the recursive reference traversal: error, visit trace,
remaining fuel, final state. -/
structure PRes where
  err : Option GErr
  trace : List String
  fuel : Nat
  fs : FS
deriving DecidableEq, Repr

mutual

/-- Reference traversal: depth-first pre-order.  Visit the node (stat, then
directory children computed as the *ascending* sort of its entry names with
`.` and `..` skipped, then the visitor), then recurse on the children left
to right.  `walk_eq_preorder` below proves the stack loop of `Walk` equal to
this traversal. -/
def preorderFuel : Nat → FS → WalkFn → String → PRes
  | 0, fs, _, _ => ⟨some (.plain .fuel), [], 0, fs⟩
  | fuel + 1, fs, fn, path =>
    match StatF (fuel + 1) fs path with
    | none => ⟨some (.plain .fuel), [], fuel, fs⟩
    | some (.error e) => ⟨some e, [], fuel, fs⟩
    | some (.ok info) =>
      match walkStep fs path info with
      | (.error e, fs1) => ⟨some e, [], fuel, fs1⟩
      | (.ok names, fs1) =>
        let kids := ((sortBy strLe names).filter
            (fun p => ¬(p = ".." ∨ p = "."))).map (fun p => join path p)
        match fn path info with
        | some e => ⟨some e, [path], fuel, fs1⟩
        | none =>
          let r := preorderGo fuel fs1 fn kids
          ⟨r.err, path :: r.trace, r.fuel, r.fs⟩
termination_by fuel _ _ _ => (fuel, 0)
decreasing_by
  simp_wf
  exact Prod.Lex.left _ _ (Nat.lt_succ_self fuel)

/-- Left-to-right traversal of a sibling list, threading leftover fuel and
state; a child's error aborts the rest. -/
def preorderGo : Nat → FS → WalkFn → List String → PRes
  | fuel, fs, _, [] => ⟨none, [], fuel, fs⟩
  | fuel, fs, fn, p :: ps =>
    match preorderFuel fuel fs fn p with
    | ⟨some e, t, fuel1, fs1⟩ => ⟨some e, t, fuel1, fs1⟩
    | ⟨none, t, fuel1, fs1⟩ =>
      let r := preorderGo (min fuel1 fuel) fs1 fn ps
      ⟨r.err, t ++ r.trace, r.fuel, r.fs⟩
termination_by fuel _ _ ps => (fuel, ps.length + 1)
decreasing_by
  · simp_wf
    exact Prod.Lex.right _ (Nat.lt_succ_of_le (Nat.zero_le _))
  · simp_wf
    rcases Nat.lt_or_ge (min fuel1 fuel) fuel with h | h
    · exact Prod.Lex.left _ _ h
    · have he : min fuel1 fuel = fuel := Nat.le_antisymm (Nat.min_le_right _ _) h
      rw [he]
      exact Prod.Lex.right _ (Nat.lt_succ_self _)

end

/-- Sequential composition used to relate the stack loop to the recursive
traversal: run the continuation stack `st` with the fuel and state a
reference traversal left over, unless it ended in an error. -/
def wSeq (r : PRes) (fn : WalkFn) (st : List String) : WRes :=
  match r.err with
  | some e => ⟨some e, r.trace, r.fs⟩
  | none =>
    let w := walkFuel r.fuel r.fs fn st
    ⟨w.err, r.trace ++ w.trace, w.fs⟩

/-! ## Path-prefix conversion (`utils.go:11-40`) -/

/-- The virtual-path marker `vfs://` (`utils.go:11`). -/
def vfsScheme : List Char := ['v', 'f', 's', ':', '/', '/']

/-- Replace the first occurrence of a non-empty pattern; helper for
`strings.Replace(s, old, new, 1)`. -/
def rfGo (old new : List Char) : List Char → List Char
  | [] => []
  | c :: rest =>
    if old.isPrefixOf (c :: rest) then new ++ (c :: rest).drop old.length
    else c :: rfGo old new rest

/-- Go `strings.Replace(s, old, new, 1)`: replace the first occurrence of
`old` by `new` (an empty `old` matches at the start). -/
def replaceFirst (s old new : List Char) : List Char :=
  if old = [] then new ++ s else rfGo old new s

/-- `IsVFSPath` (`utils.go:25-31`). -/
def IsVFSPath (p : String) : Bool :=
  vfsScheme.isPrefixOf p.data

/-- `convertVFSPath` (`utils.go:21-23`): replace the first `vfs://` by `/`. -/
def convertVFSPath (p : String) : String :=
  ⟨replaceFirst p.data vfsScheme ['/']⟩

/-- `ConvertVFSPath` (`utils.go:13-19`). -/
def ConvertVFSPath (p : String) : String × Bool :=
  if IsVFSPath p then (convertVFSPath p, true) else (p, false)

/-- `MakeVFSPath` (`utils.go:33-40`): replace the first `/` by `vfs://`; if
nothing was replaced, prepend `vfs://`. -/
def MakeVFSPath (p : String) : String :=
  let v : String := ⟨replaceFirst p.data ['/'] vfsScheme⟩
  if v = p then ⟨vfsScheme ++ p.data⟩ else v

/-! ## Concrete demonstration states

All are reached from `NewFS` through the façade itself. -/

/-- `NewFS` after `OpenFile("/f", O_CREATE|O_RDWR, 0o644)`: one regular
file `/f` (inode 2, mode 0o644). -/
def fsF : FS := (OpenFile NewFS "/f" 66 420).2

/-- `fsF` after `Symlink("/f", "/a")` then `Symlink("/a", "/a")`: `/a` is a
symlink (inode 3) whose stored target is `/a` itself — a one-hop cycle. -/
def cycFS : FS := (Symlink (Symlink fsF "/f" "/a").2 "/a" "/a").2

/-- `NewFS` after `Mkdir("/d", 0o777)` and `OpenFile("/d/x", CREATE|RDWR,
0o644)`: a directory with one file in it. -/
def demoFS : FS := (OpenFile (Mkdir NewFS "/d" 511).2 "/d/x" 66 420).2

/-! ## General lemmas -/

theorem lGet_lt {α : Type} {l : List α} {i : Nat} (h : i < l.length) :
    ∃ v, lGet l i = some v := by
  induction l generalizing i with
  | nil => simp at h
  | cons a t ih =>
    cases i with
    | zero => exact ⟨a, rfl⟩
    | succ n => exact ih (Nat.lt_of_succ_lt_succ h)

theorem hGet_append_left {h h' : Heap} {i : Nat} {v : Inode}
    (hv : hGet h i = some v) : hGet (h ++ h') i = some v := by
  induction h with
  | nil => simp [hGet] at hv
  | cons p t ih =>
    rw [List.cons_append]
    unfold hGet at hv ⊢
    by_cases hp : p.1 = i
    · rw [if_pos hp] at hv ⊢; exact hv
    · rw [if_neg hp] at hv ⊢; exact ih hv

theorem hGet_append_fresh {h : Heap} {i : Nat} {v : Inode}
    (hv : hGet h i = none) : hGet (h ++ [(i, v)]) i = some v := by
  induction h with
  | nil => simp [hGet]
  | cons p t ih =>
    rw [List.cons_append]
    unfold hGet at hv ⊢
    by_cases hp : p.1 = i
    · rw [if_pos hp] at hv; exact absurd hv (by simp)
    · rw [if_neg hp] at hv ⊢; exact ih hv

theorem hGet_hUpd_ne {h : Heap} {i j : Nat} {f : Inode → Inode}
    (hij : i ≠ j) : hGet (hUpd h i f) j = hGet h j := by
  induction h with
  | nil => rfl
  | cons p t ih =>
    show hGet ((if p.1 = i then (p.1, f p.2) else p) :: hUpd t i f) j = hGet (p :: t) j
    by_cases hp : p.1 = i
    · have hpj : p.1 ≠ j := fun hh => hij (hp ▸ hh)
      rw [if_pos hp]
      unfold hGet
      rw [if_neg hpj, if_neg hpj]
      exact ih
    · unfold hGet
      rw [if_neg hp]
      by_cases hpj : p.1 = j
      · rw [if_pos hpj, if_pos hpj]
      · rw [if_neg hpj, if_neg hpj]; exact ih

theorem hGet_hUpd_self {h : Heap} {i : Nat} {f : Inode → Inode} :
    hGet (hUpd h i f) i = (hGet h i).map f := by
  induction h with
  | nil => rfl
  | cons p t ih =>
    show hGet ((if p.1 = i then (p.1, f p.2) else p) :: hUpd t i f) i
        = (hGet (p :: t) i).map f
    by_cases hp : p.1 = i
    · rw [if_pos hp]
      unfold hGet
      rw [if_pos hp, if_pos hp]
      rfl
    · rw [if_neg hp]
      unfold hGet
      rw [if_neg hp, if_neg hp]
      exact ih

theorem symGet_symSet_self (l : List (Nat × String)) (i : Nat) (t : String) :
    symGet (symSet l i t) i = t := by
  simp [symGet, symSet]

/-! ## Claims -/

/-- C9: `OpenFile("/", flag, perm)` succeeds for every flag bitset and every
permission argument, returning a handle bound to the root inode with the
state unchanged — the literal path `/` short-circuits past the
IS_DIRECTORY, CREATE+EXCLUSIVE and permission checks applied to every other
existing path (`vfs.go:157-159`).  The hypothesis says only that the payload
array covers the root index (true of every state built by the façade, which
starts with two slots). -/
theorem openFile_root_bypasses_checks (fs : FS) (flag perm : Nat)
    (h : fs.rootIno < fs.data.length) :
    OpenFile fs "/" flag perm = (.ok ⟨"/", flag, fs.rootIno, 0⟩, fs) := by
  obtain ⟨v, hv⟩ : ∃ v, lGet fs.data fs.rootIno = some v := lGet_lt h
  simp [OpenFile, hv]

/-- Witness for C9: on the fresh filesystem, with flags
CREATE|EXCLUSIVE|TRUNCATE|RDWR (which would fail on any other existing
path) and an arbitrary permission word. -/
theorem openFile_root_bypasses_checks_witness :
    NewFS.rootIno < NewFS.data.length ∧
    OpenFile NewFS "/" 706 511 = (.ok ⟨"/", 706, 1, 0⟩, NewFS) :=
  ⟨by decide, openFile_root_bypasses_checks NewFS 706 511 (by decide)⟩

/-- C7: `Truncate(name, size)` with `size < 0` fails before touching any
state — but with `os.ErrClosed` ("file already closed"), not an
INVALID-kind error (`vfs.go:257-259` wraps `os.ErrClosed`, where the spec
demands INVALID / `os.ErrInvalid`). -/
theorem truncate_negative_fails_errClosed (fs : FS) (name : String) (size : Int)
    (h : size < 0) :
    Truncate fs name size = (.error (.path "truncate" name .errClosed), fs) := by
  unfold Truncate
  rw [if_pos h]

/-- Witness for C7: truncating `/f` to −1 on the one-file state; the error
kind is `errClosed`, which is not `einval`. -/
theorem truncate_negative_fails_errClosed_witness :
    Truncate fsF "/f" (-1) = (.error (.path "truncate" "/f" .errClosed), fsF) ∧
    Err.errClosed ≠ Err.einval :=
  ⟨truncate_negative_fails_errClosed fsF "/f" (-1) (by decide), by decide⟩

/-- The `fileStat` recursion is a fixpoint on the cyclic state: one
unfolding at the self-targeting symlink `/a` reproduces the same call, so no
amount of fuel produces a result. -/
theorem fileStat_cyc_aux : ∀ n, fileStatF n cycFS "." "/a" = none := by
  intro n
  induction n with
  | zero => rfl
  | succ k ih =>
    have hstep : fileStatF (k + 1) cycFS "." "/a" = fileStatF k cycFS "." "/a" := rfl
    rw [hstep, ih]

/-- C2: `Stat` does **not** terminate on every state: on the reachable state
`cycFS` (built by `Symlink("/f","/a")` then `Symlink("/a","/a")`, so the
symlink table maps `/a` to itself), `Stat("/a")` returns no result within
any number of symlink hops — the Go recursion (`vfs.go:500`, flagged
`// TODO: Avoid cyclical links`) never returns, where the claim and spec
require a bounded hop count ending in a non-symlink, LOOP, or a resolution
failure. -/
theorem stat_diverges_on_symlink_cycle : ∀ n, StatF n cycFS "/a" = none := by
  intro n
  cases n with
  | zero => rfl
  | succ k =>
    have h1 : StatF (k + 1) cycFS "/a"
        = (fileStatF k cycFS "." "/a").map
            (fun r => r.map (fun node => ⟨base "/a", node⟩)) := rfl
    rw [h1, fileStat_cyc_aux k]
    rfl

/-- C3 (amended): `MkdirAll` discards the result of every per-level `Mkdir`
(`vfs.go:368` ignores the returned error) and returns nil unconditionally —
not just on EXISTS errors. -/
theorem mkdirAll_always_ok (fs : FS) (name : String) (perm : Nat) :
    (MkdirAll fs name perm).1 = .ok () := rfl

/-- C3 counterexample: with `/f` a regular file, `MkdirAll("/f/x/y")`
returns nil even though its fourth level — `Mkdir` applied to `/f/x/y`
after the first three levels ran, exactly as the loop does — fails with a
NOT_A_DIRECTORY (non-EXISTS) error; the claim requires that error to be
returned. -/
theorem mkdirAll_counterexample :
    (MkdirAll fsF "/f/x/y" 493).1 = .ok () ∧
    (Mkdir (Mkdir (Mkdir (Mkdir fsF "/" 493).2 "/f" 493).2 "/f/x" 493).2 "/f/x/y" 493).1
      = .error (.path "mkdir" "/f/x" .enotdir) :=
  ⟨rfl, rfl⟩

/-- C4 counterexample: on the fresh filesystem, `RemoveAll("/nope")` — a
path that resolves to nothing — returns a `PathError`, not success. -/
theorem removeAll_missing_counterexample :
    RemoveAll NewFS "/nope" = (.error (.path "remove" "/nope" .enoent), NewFS) := rfl

/-- C4 (amended): a missing path IS an error — when the name does not
resolve, `RemoveAll` fails with a `PathError` (op `remove`) wrapping the
resolution error and leaves the state unchanged (`vfs.go:412-414`).  When
the name resolves, the subtree is recursively unlinked (`child.UnlinkAll()`,
modelled from the spec) and then the top name is unlinked from its parent,
demonstrated here on the concrete tree `/d`, `/d/x`: the removal succeeds
and `/d` subsequently fails to stat with NO_SUCH_ENTRY. -/
theorem removeAll_behaviour (fs : FS) (name : String) (e : Err)
    (h : resolve fs.heap (wdOf fs name) name = .error e) :
    RemoveAll fs name = (.error (.path "remove" name e), fs) ∧
    (RemoveAll demoFS "/d").1 = .ok () ∧
    StatF 5 (RemoveAll demoFS "/d").2 "/d" = some (.error (.path "stat" "d" .enoent)) ∧
    StatF 5 (RemoveAll demoFS "/d").2 "/d/x" = some (.error (.path "stat" "d/x" .enoent)) := by
  refine ⟨?_, rfl, rfl, rfl⟩
  simp only [RemoveAll, h]

/-- Witness for C4 on a concrete missing path. -/
theorem removeAll_behaviour_witness :
    RemoveAll NewFS "/zzz" = (.error (.path "remove" "/zzz" .enoent), NewFS) :=
  (removeAll_behaviour NewFS "/zzz" .enoent rfl).1

/-- C5 counterexample: on the fresh filesystem the parent of `/lnk` (the
root) exists and the basename `lnk` is absent, yet
`Symlink("/target", "/lnk")` fails with NO_SUCH_ENTRY because the target
`/target` does not resolve — the code resolves the target
(`vfs.go:577-580`) instead of accepting an arbitrary string. -/
theorem symlink_counterexample :
    Symlink NewFS "/target" "/lnk" = (.error (.path "symlink" "/target" .enoent), NewFS) := rfl

/-- C5 (amended): `Symlink(target, linkpath)` with a fresh basename in an
existing parent succeeds only when the target itself also resolves to an
existing inode (otherwise it fails NO_SUCH_ENTRY, refuting "no validation is
performed"); on success the target string is recorded verbatim in the
symlink table under the freshly allocated inode number. -/
theorem symlink_stores_target_verbatim (fs : FS) (oldname newname : String)
    (e : Err) (oldIno pIno : Nat) (oldNode pNode : Inode)
    (hn : resolve fs.heap (wdOf fs newname) newname = .error e)
    (ho : resolve fs.heap (wdOf fs newname) oldname = .ok oldIno)
    (hON : hGet fs.heap oldIno = some oldNode)
    (hp : resolve fs.heap (wdOf fs newname) (clean (split newname).1) = .ok pIno)
    (hpn : hGet fs.heap pIno = some pNode)
    (hd : dGet pNode.dir (split newname).2 = none) :
    (Symlink fs oldname newname).1 = .ok () ∧
    symGet (Symlink fs oldname newname).2.symlinks (fs.nextIno + 1) = oldname := by
  have hlink : hLink (fs.heap ++ [(fs.nextIno + 1, ⟨fs.nextIno + 1, oldNode.mode ||| modeSymlink, 0, []⟩)])
      pIno (split newname).2 (fs.nextIno + 1)
      = .ok (hUpd (fs.heap ++ [(fs.nextIno + 1, ⟨fs.nextIno + 1, oldNode.mode ||| modeSymlink, 0, []⟩)])
          pIno (fun n => { n with dir := n.dir ++ [((split newname).2, fs.nextIno + 1)] })) := by
    unfold hLink
    rw [hGet_append_left hpn]
    simp only [hd]
  simp only [Symlink, hn, ho, hON, hp, hlink]
  exact ⟨trivial, symGet_symSet_self _ _ _⟩

/-- Witness for C5: `Symlink("/f", "/lnk")` on the one-file state records
the string `/f` verbatim for the new inode 3. -/
theorem symlink_stores_target_verbatim_witness :
    (Symlink fsF "/f" "/lnk").1 = .ok () ∧
    symGet (Symlink fsF "/f" "/lnk").2.symlinks 3 = "/f" :=
  symlink_stores_target_verbatim fsF "/f" "/lnk" .enoent 2 1
    ⟨2, 420, 0, []⟩
    ⟨1, modeDir ||| 493, 0, [(".", 1), ("..", 1), ("f", 2)]⟩
    rfl rfl rfl rfl rfl rfl

/-- C6 counterexample: `/f` resolves to a regular file — not a symlink —
yet `Readlink("/f")` succeeds with the empty string instead of failing
NOT_SYMLINK (`vfs.go:560` returns the symlink-table zero value with a nil
error). -/
theorem readlink_counterexample : Readlink fsF "/f" = .ok "" := rfl

/-- C6 (amended): for a name other than `/`, `Readlink` returns the
resolution error (bare, not wrapped) when the name does not resolve, and
otherwise returns the symlink table's entry for the resolved inode — the
stored target for a symlink, and the zero value `""` with **no**
NOT_SYMLINK error for any non-symlink.  (`/` itself returns the table entry
of the root inode.) -/
theorem readlink_behaviour (fs : FS) (name : String) (h : name ≠ "/") :
    (∀ e, resolve fs.heap fs.rootIno (trimSlash name) = .error e →
        Readlink fs name = .error (.plain e)) ∧
    (∀ i node, resolve fs.heap fs.rootIno (trimSlash name) = .ok i →
        hGet fs.heap i = some node →
        Readlink fs name = .ok (symGet fs.symlinks node.ino)) := by
  constructor
  · intro e he
    unfold Readlink
    rw [if_neg h]
    simp only [he]
  · intro i node hi hn
    unfold Readlink
    rw [if_neg h]
    simp only [hi, hn]

/-- Witness for C6: a missing path yields the bare resolution error; the
symlink `/a` of the cyclic state yields its stored target. -/
theorem readlink_behaviour_witness :
    Readlink NewFS "/x" = .error (.plain .enoent) ∧
    Readlink cycFS "/a" = .ok "/a" :=
  ⟨(readlink_behaviour NewFS "/x" (by decide)).1 .enoent rfl,
   (readlink_behaviour cycFS "/a" (by decide)).2 3 ⟨3, 134218148, 0, []⟩ rfl rfl⟩

theorem lGet_append_length {α : Type} (l : List α) (x : α) :
    lGet (l ++ [x]) l.length = some x := by
  induction l with
  | nil => rfl
  | cons a t ih => exact ih

/-- C1 counterexample: on the fresh filesystem (umask 0o755),
`OpenFile("/f", CREATE|RDWR, 0o644)` allocates inode 2 with permission bits
`umask & perm = 0o644` — but the claim's formula `perm & ~umask` (uint32
complement) gives 0, so the two disagree. -/
theorem openFile_create_mode_counterexample :
    hGet (OpenFile NewFS "/f" 66 420).2.heap 2
      = some ⟨2, NewFS.umask &&& 420, 0, []⟩ ∧
    NewFS.umask &&& 420 ≠ 420 &&& (4294967295 ^^^ NewFS.umask) := by
  constructor
  · rfl
  · decide

/-- C1 (amended): when `OpenFile` creates (the path does not resolve, the
parent does, `CREATE` is set, the basename is free in the parent), the newly
allocated inode's permission bits are `umask & perm` — the filesystem's
umask field AND-ed with the requested permissions (`vfs.go:224`), not
`perm & ~umask`.  The remaining hypotheses say the allocator and payload
array are in sync and the fresh inode number is fresh, true of every
façade-built state. -/
theorem openFile_create_applies_umask
    (fs : FS) (flag perm : Nat) (name : String) (e : Err) (pIno : Nat) (pNode : Inode)
    (h0 : name ≠ "/") (h0' : name ≠ ".")
    (h1 : resolve fs.heap (wdOf fs name) name = .error e)
    (h2 : flag &&& oCREATE ≠ 0)
    (h3 : resolve fs.heap (wdOf fs name) (clean (split name).1) = .ok pIno)
    (hpn : hGet fs.heap pIno = some pNode)
    (hd : dGet pNode.dir (split name).2 = none)
    (h6 : fs.nextIno + 1 = fs.data.length)
    (h7 : pIno ≠ fs.nextIno + 1)
    (h8 : hGet fs.heap (fs.nextIno + 1) = none) :
    (OpenFile fs name flag perm).1 = .ok ⟨name, flag, fs.nextIno + 1, 0⟩ ∧
    hGet (OpenFile fs name flag perm).2.heap (fs.nextIno + 1)
      = some ⟨fs.nextIno + 1, fs.umask &&& perm, 0, []⟩ := by
  have hlink : hLink (fs.heap ++ [(fs.nextIno + 1,
        { ino := fs.nextIno + 1, mode := fs.umask &&& perm, size := 0, dir := [] })])
      pIno (split name).2 (fs.nextIno + 1)
      = .ok (hUpd (fs.heap ++ [(fs.nextIno + 1,
          { ino := fs.nextIno + 1, mode := fs.umask &&& perm, size := 0, dir := [] })])
          pIno (fun n => { n with dir := n.dir ++ [((split name).2, fs.nextIno + 1)] })) := by
    unfold hLink
    rw [hGet_append_left hpn]
    simp only [hd]
  have hnode : hGet (hUpd (fs.heap ++ [(fs.nextIno + 1,
        { ino := fs.nextIno + 1, mode := fs.umask &&& perm, size := 0, dir := [] })])
        pIno (fun n => { n with dir := n.dir ++ [((split name).2, fs.nextIno + 1)] }))
        (fs.nextIno + 1)
      = some { ino := fs.nextIno + 1, mode := fs.umask &&& perm, size := 0, dir := [] } := by
    rw [hGet_hUpd_ne h7]
    exact hGet_append_fresh h8
  have hslot : lGet (fs.data ++ [some (⟨none, none, none⟩ : SealedFile)]) (fs.nextIno + 1)
      = some (some (⟨none, none, none⟩ : SealedFile)) := by
    rw [h6]
    exact lGet_append_length _ _
  simp only [OpenFile, h0, h0', h1, h3, h2, hlink, openTail, hslot, hnode,
    hGet_hUpd_self, emptySealed, if_false, ite_self]
  by_cases htr : flag &&& oTRUNC = 0 <;>
    simp [htr, h2, hslot, hnode, hGet_hUpd_self]

/-- Witness for C1: the counterexample run itself satisfies every
hypothesis. -/
theorem openFile_create_applies_umask_witness :
    (OpenFile NewFS "/f" 66 420).1 = .ok ⟨"/f", 66, 2, 0⟩ ∧
    hGet (OpenFile NewFS "/f" 66 420).2.heap 2
      = some ⟨2, NewFS.umask &&& 420, 0, []⟩ :=
  openFile_create_applies_umask NewFS 66 420 "/f" .enoent 1
    ⟨1, modeDir ||| 493, 0, [(".", 1), ("..", 1)]⟩
    (by decide) (by decide) rfl (by decide) rfl rfl rfl rfl (by decide) rfl

/-! ## C10: the `vfs://` round-trip -/

theorem isPrefixOf_append (l r : List Char) : l.isPrefixOf (l ++ r) = true := by
  induction l with
  | nil => simp [List.isPrefixOf]
  | cons a as ih => simp [List.isPrefixOf, ih]

theorem rfGo_of_pre {old new s : List Char} (hne : old ≠ [])
    (h : old.isPrefixOf s = true) :
    rfGo old new s = new ++ s.drop old.length := by
  cases s with
  | nil =>
    cases old with
    | nil => exact absurd rfl hne
    | cons a as => simp [List.isPrefixOf] at h
  | cons c rest =>
    unfold rfGo
    rw [if_pos h]

/-- C10: the path-prefix conversion round-trips both ways: stripping then
re-adding `vfs://` is the identity on strings that carry the marker, and
re-adding then stripping is the identity (with the `true` flag) on strings
that begin with `/`.  (The claim's extra condition on part two — no
`vfs://` before the first `/` — is vacuous for strings beginning with `/`
and is therefore dropped; the statement proved here is the stronger one.) -/
theorem vfs_path_roundtrip :
    (∀ q : String, IsVFSPath q = true → MakeVFSPath (convertVFSPath q) = q) ∧
    (∀ p : String, isAbs p = true → ConvertVFSPath (MakeVFSPath p) = (p, true)) := by
  constructor
  · intro q hq
    obtain ⟨r, hr⟩ : ∃ r, q.data = vfsScheme ++ r := by
      have hpre : vfsScheme <+: q.data := by
        rw [← List.isPrefixOf_iff_prefix]
        exact hq
      obtain ⟨r, hr⟩ := hpre
      exact ⟨r, hr.symm⟩
    have hconv : convertVFSPath q = ⟨'/' :: r⟩ := by
      unfold convertVFSPath replaceFirst
      rw [if_neg (by decide : ¬(vfsScheme = [])), hr,
        rfGo_of_pre (by decide) (isPrefixOf_append _ _), List.drop_left]
      rfl
    have hmk : replaceFirst ('/' :: r) ['/'] vfsScheme = vfsScheme ++ r := by
      unfold replaceFirst
      rw [if_neg (by decide : ¬((['/'] : List Char) = []))]
      have : (['/'] : List Char).isPrefixOf ('/' :: r) = true := by
        simp [List.isPrefixOf]
      rw [rfGo_of_pre (by decide) this]
      rfl
    rw [hconv]
    unfold MakeVFSPath
    have hne : (⟨replaceFirst (String.mk ('/' :: r)).data ['/'] vfsScheme⟩ : String)
        ≠ ⟨('/' :: r)⟩ := by
      intro hcontra
      have hdata := congrArg String.data hcontra
      simp only [hmk] at hdata
      simp [vfsScheme] at hdata
    rw [if_neg hne]
    show (⟨replaceFirst ('/' :: r) ['/'] vfsScheme⟩ : String) = q
    rw [hmk]
    cases q with
    | mk d => simp_all
  · intro p hp
    obtain ⟨r, hr⟩ : ∃ r, p.data = '/' :: r := by
      unfold isAbs at hp
      cases hd : p.data with
      | nil => rw [hd] at hp; simp at hp
      | cons c rest =>
        rw [hd] at hp
        simp at hp
        exact ⟨rest, by rw [hp]⟩
    have hmk : replaceFirst p.data ['/'] vfsScheme = vfsScheme ++ r := by
      unfold replaceFirst
      rw [if_neg (by decide : ¬((['/'] : List Char) = [])), hr]
      have : (['/'] : List Char).isPrefixOf ('/' :: r) = true := by
        simp [List.isPrefixOf]
      rw [rfGo_of_pre (by decide) this]
      rfl
    have hv : MakeVFSPath p = ⟨vfsScheme ++ r⟩ := by
      unfold MakeVFSPath
      have hne : (⟨replaceFirst p.data ['/'] vfsScheme⟩ : String) ≠ p := by
        intro hcontra
        have hdata := congrArg String.data hcontra
        rw [hmk, hr] at hdata
        simp [vfsScheme] at hdata
      rw [if_neg hne]
      show (⟨replaceFirst p.data ['/'] vfsScheme⟩ : String) = _
      rw [hmk]
    rw [hv]
    unfold ConvertVFSPath
    have hisv : IsVFSPath ⟨vfsScheme ++ r⟩ = true := by
      unfold IsVFSPath
      exact isPrefixOf_append _ _
    rw [if_pos hisv]
    have hconv : convertVFSPath ⟨vfsScheme ++ r⟩ = p := by
      unfold convertVFSPath replaceFirst
      rw [if_neg (by decide : ¬(vfsScheme = [])),
        rfGo_of_pre (by decide) (isPrefixOf_append _ _), List.drop_left]
      cases p with
      | mk d => simp_all
    rw [hconv]

/-- Witness for C10 at concrete strings. -/
theorem vfs_path_roundtrip_witness :
    MakeVFSPath (convertVFSPath "vfs://x/y") = "vfs://x/y" ∧
    ConvertVFSPath (MakeVFSPath "/x/y") = ("/x/y", true) :=
  ⟨vfs_path_roundtrip.1 "vfs://x/y" (by decide),
   vfs_path_roundtrip.2 "/x/y" (by decide)⟩

/-! ## C8: the Walk loop is a depth-first pre-order traversal

First the order theory of `lexLe`, then the insertion sort, then the
stack/recursion equivalence. -/

theorem lexLe_cons (x y : Char) (as bs : List Char) :
    lexLe (x :: as) (y :: bs) = if x = y then lexLe as bs else decide (x < y) := rfl

theorem lexLe_total : ∀ a b : List Char, lexLe a b = true ∨ lexLe b a = true := by
  intro a
  induction a with
  | nil => intro b; left; rfl
  | cons x as ih =>
    intro b
    cases b with
    | nil => right; rfl
    | cons y bs =>
      by_cases hxy : x = y
      · subst hxy
        rw [lexLe_cons, lexLe_cons, if_pos rfl, if_pos rfl]
        exact ih bs
      · rcases lt_or_gt_of_ne hxy with h | h
        · left
          rw [lexLe_cons, if_neg hxy]
          exact decide_eq_true h
        · right
          rw [lexLe_cons, if_neg (Ne.symm hxy)]
          exact decide_eq_true h

theorem lexLe_trans : ∀ a b c : List Char,
    lexLe a b = true → lexLe b c = true → lexLe a c = true := by
  intro a
  induction a with
  | nil => intro b c _ _; rfl
  | cons x as ih =>
    intro b c h1 h2
    cases b with
    | nil => simp [lexLe] at h1
    | cons y bs =>
      cases c with
      | nil => simp [lexLe] at h2
      | cons z cs =>
        by_cases hxy : x = y
        · subst hxy
          rw [lexLe_cons, if_pos rfl] at h1
          by_cases hxz : x = z
          · subst hxz
            rw [lexLe_cons, if_pos rfl] at h2 ⊢
            exact ih bs cs h1 h2
          · rw [lexLe_cons, if_neg hxz] at h2 ⊢
            exact h2
        · rw [lexLe_cons, if_neg hxy] at h1
          have hxy' : x < y := of_decide_eq_true h1
          by_cases hyz : y = z
          · subst hyz
            rw [lexLe_cons, if_neg hxy]
            exact decide_eq_true hxy'
          · rw [lexLe_cons, if_neg hyz] at h2
            have hyz' : y < z := of_decide_eq_true h2
            have hxz' : x < z := lt_trans hxy' hyz'
            rw [lexLe_cons, if_neg (ne_of_lt hxz')]
            exact decide_eq_true hxz'

theorem lexLe_antisymm : ∀ a b : List Char,
    lexLe a b = true → lexLe b a = true → a = b := by
  intro a
  induction a with
  | nil =>
    intro b _ h2
    cases b with
    | nil => rfl
    | cons y bs => simp [lexLe] at h2
  | cons x as ih =>
    intro b h1 h2
    cases b with
    | nil => simp [lexLe] at h1
    | cons y bs =>
      by_cases hxy : x = y
      · subst hxy
        rw [lexLe_cons, if_pos rfl] at h1 h2
        rw [ih bs h1 h2]
      · rw [lexLe_cons, if_neg hxy] at h1
        rw [lexLe_cons, if_neg (Ne.symm hxy)] at h2
        exact absurd (of_decide_eq_true h2) (lt_asymm (of_decide_eq_true h1))

theorem strLe_total : ∀ a b : String, strLe a b = true ∨ strLe b a = true :=
  fun a b => lexLe_total a.data b.data

theorem strLe_trans : ∀ a b c : String,
    strLe a b = true → strLe b c = true → strLe a c = true :=
  fun a b c h1 h2 => lexLe_trans a.data b.data c.data h1 h2

theorem strLe_antisymm : ∀ a b : String,
    strLe a b = true → strLe b a = true → a = b := by
  intro a b h1 h2
  exact congrArg String.mk (lexLe_antisymm a.data b.data h1 h2)

theorem insBy_eq_orderedInsert (le : String → String → Bool) (x : String) :
    ∀ l, insBy le x l = List.orderedInsert (fun a b => le a b = true) x l := by
  intro l
  induction l with
  | nil => rfl
  | cons y ys ih =>
    unfold insBy List.orderedInsert
    by_cases h : le x y = true
    · rw [if_pos h, if_pos h]
    · rw [if_neg h, if_neg h, ih]

theorem sortBy_eq_insertionSort (le : String → String → Bool) (l : List String) :
    sortBy le l = List.insertionSort (fun a b => le a b = true) l := by
  induction l with
  | nil => rfl
  | cons a t ih =>
    show insBy le a (sortBy le t) = _
    rw [ih, insBy_eq_orderedInsert]
    rfl

theorem sortBy_perm (le : String → String → Bool) (l : List String) :
    (sortBy le l).Perm l := by
  rw [sortBy_eq_insertionSort]
  exact List.perm_insertionSort _ l

theorem sortBy_strLe_sorted (l : List String) :
    (sortBy strLe l).Pairwise (fun a b => strLe a b = true) := by
  rw [sortBy_eq_insertionSort]
  haveI : IsTotal String (fun a b => strLe a b = true) := ⟨strLe_total⟩
  haveI : IsTrans String (fun a b => strLe a b = true) := ⟨strLe_trans⟩
  exact List.sorted_insertionSort _ l

theorem sortBy_strGe_sorted (l : List String) :
    (sortBy strGe l).Pairwise (fun a b => strGe a b = true) := by
  rw [sortBy_eq_insertionSort]
  haveI : IsTotal String (fun a b => strGe a b = true) := ⟨fun a b => strLe_total b a⟩
  haveI : IsTrans String (fun a b => strGe a b = true) :=
    ⟨fun a b c h1 h2 => strLe_trans c b a h2 h1⟩
  exact List.sorted_insertionSort _ l

/-- The descending sort of Go's `sort.Sort(sort.Reverse(...))`, reversed, is
the ascending sort: both are sorted rearrangements and sorted rearrangements
are unique under antisymmetry. -/
theorem reverse_sortGe_eq_sortLe (l : List String) :
    (sortBy strGe l).reverse = sortBy strLe l := by
  haveI : IsAntisymm String (fun a b => strLe a b = true) := ⟨strLe_antisymm⟩
  apply List.eq_of_perm_of_sorted
    (r := fun a b => strLe a b = true)
  · exact ((sortBy strGe l).reverse_perm.trans (sortBy_perm strGe l)).trans
      (sortBy_perm strLe l).symm
  · exact List.pairwise_reverse.mpr (sortBy_strGe_sorted l)
  · exact sortBy_strLe_sorted l

theorem filter_rev {α : Type} (p : α → Bool) :
    ∀ l : List α, (l.reverse).filter p = (l.filter p).reverse := by
  intro l
  induction l with
  | nil => rfl
  | cons a t ih =>
    rw [List.reverse_cons, List.filter_append, ih, List.filter_cons]
    by_cases h : p a = true
    · rw [if_pos h]
      simp [List.filter, h]
    · rw [if_neg h]
      simp [List.filter, h]

theorem walkPush_decomp (path : String) : ∀ (names st : List String),
    walkPush path st names =
      ((names.filter (fun p => ¬(p = ".." ∨ p = "."))).map
        (fun p => join path p)).reverse ++ st := by
  intro names
  induction names with
  | nil => intro st; rfl
  | cons p t ih =>
    intro st
    show walkPush path (if p = ".." ∨ p = "." then st else join path p :: st) t = _
    by_cases hk : p = ".." ∨ p = "."
    · rw [if_pos hk, ih, List.filter_cons]
      simp [hk]
    · rw [if_neg hk, ih, List.filter_cons]
      simp [hk, List.append_assoc]

/-- The stack produced by one Walk iteration is the ascending children list
followed by the old stack. -/
theorem walkPush_sorted (path : String) (names st : List String) :
    walkPush path st (sortBy strGe names) =
      (((sortBy strLe names).filter (fun p => ¬(p = ".." ∨ p = "."))).map
        (fun p => join path p)) ++ st := by
  rw [walkPush_decomp]
  congr 1
  rw [← List.map_reverse, ← filter_rev, reverse_sortGe_eq_sortLe]

/-- Fuel accounting of the reference traversal: leftover fuel never exceeds
the input, and a successful (error-free) node visit consumes at least one
unit. -/
theorem preorder_fuel_bound : ∀ n : Nat,
    (∀ fs fn p, (preorderFuel n fs fn p).fuel ≤ n ∧
      ((preorderFuel n fs fn p).err = none → (preorderFuel n fs fn p).fuel < n)) ∧
    (∀ fs fn ps, (preorderGo n fs fn ps).fuel ≤ n) := by
  intro n
  induction n using Nat.strong_induction_on with
  | _ n ih =>
    have hA : ∀ fs fn p, (preorderFuel n fs fn p).fuel ≤ n ∧
        ((preorderFuel n fs fn p).err = none → (preorderFuel n fs fn p).fuel < n) := by
      intro fs fn p
      cases n with
      | zero =>
        refine ⟨?_, ?_⟩
        · simp [preorderFuel]
        · intro h
          simp [preorderFuel] at h
      | succ m =>
        cases hstat : StatF (m + 1) fs p with
        | none =>
          refine ⟨?_, ?_⟩ <;> simp [preorderFuel, hstat]
        | some r =>
          cases r with
          | error e =>
            refine ⟨?_, ?_⟩ <;> simp [preorderFuel, hstat]
          | ok info =>
            rcases hstep : walkStep fs p info with ⟨X, fs1⟩
            cases X with
            | error e =>
              refine ⟨?_, ?_⟩ <;> simp [preorderFuel, hstat, hstep]
            | ok names =>
              cases hfn : fn p info with
              | some e =>
                refine ⟨?_, ?_⟩ <;> simp [preorderFuel, hstat, hstep, hfn]
              | none =>
                have hgo := (ih m (Nat.lt_succ_self m)).2 fs1 fn
                refine ⟨?_, ?_⟩
                · simp only [preorderFuel, hstat, hstep, hfn]
                  exact le_trans (hgo _) (Nat.le_succ m)
                · intro _
                  simp only [preorderFuel, hstat, hstep, hfn]
                  exact Nat.lt_succ_of_le (hgo _)
    have hB : ∀ fs fn ps, (preorderGo n fs fn ps).fuel ≤ n := by
      intro fs fn ps
      cases ps with
      | nil => simp [preorderGo]
      | cons p ps' =>
        rcases hpf : preorderFuel n fs fn p with ⟨err, t, fuel1, fs1⟩
        have hple : fuel1 ≤ n := by
          have := (hA fs fn p).1
          rw [hpf] at this
          exact this
        cases err with
        | some e => simp [preorderGo, hpf, hple]
        | none =>
          have hplt : fuel1 < n := by
            have := (hA fs fn p).2
            rw [hpf] at this
            exact this rfl
          have hmin : min fuel1 n = fuel1 := Nat.min_eq_left (le_of_lt hplt)
          have hrest := (ih fuel1 hplt).2 fs1 fn ps'
          simp [preorderGo, hpf, hmin]
          exact le_trans hrest (le_of_lt hplt)
    exact ⟨hA, hB⟩

/-- The Walk loop on a stack `ps ++ st` performs the pre-order traversal of
the `ps` roots left to right and then continues with `st` on the leftover
fuel and state. -/
theorem walk_split : ∀ n fs fn (ps st : List String),
    walkFuel n fs fn (ps ++ st) = wSeq (preorderGo n fs fn ps) fn st := by
  intro n
  induction n using Nat.strong_induction_on with
  | _ n ih =>
    intro fs fn ps st
    cases ps with
    | nil =>
      rcases hw : walkFuel n fs fn st with ⟨e, t, f⟩
      simp [preorderGo, wSeq, hw]
    | cons p ps' =>
      cases n with
      | zero => simp [walkFuel, preorderGo, preorderFuel, wSeq]
      | succ m =>
        cases hstat : StatF (m + 1) fs p with
        | none => simp [walkFuel, preorderGo, preorderFuel, wSeq, hstat]
        | some r =>
          cases r with
          | error e => simp [walkFuel, preorderGo, preorderFuel, wSeq, hstat]
          | ok info =>
            rcases hstep : walkStep fs p info with ⟨X, fs1⟩
            cases X with
            | error e =>
              simp [walkFuel, preorderGo, preorderFuel, wSeq, hstat, hstep]
            | ok names =>
              cases hfn : fn p info with
              | some e =>
                simp [walkFuel, preorderGo, preorderFuel, wSeq, hstat, hstep, hfn]
              | none =>
                have hkids := walkPush_sorted p names (ps' ++ st)
                have h1 := ih m (Nat.lt_succ_self m) fs1 fn
                  (((sortBy strLe names).filter (fun q => ¬(q = ".." ∨ q = "."))).map
                    (fun q => join p q)) (ps' ++ st)
                rcases hgo : preorderGo m fs1 fn
                    (((sortBy strLe names).filter (fun q => ¬(q = ".." ∨ q = "."))).map
                      (fun q => join p q)) with ⟨gerr, gt, gn, gfs⟩
                have hgn : gn ≤ m := by
                  have := (preorder_fuel_bound m).2 fs1 fn
                    (((sortBy strLe names).filter (fun q => ¬(q = ".." ∨ q = "."))).map
                      (fun q => join p q))
                  rw [hgo] at this
                  exact this
                cases gerr with
                | some e =>
                  simp only [walkFuel, hstat, hstep, hfn, hgo, wSeq,
                    preorderGo, preorderFuel, List.append_eq]
                  rw [hkids, h1, hgo]
                  simp [wSeq]
                | none =>
                  have hmin : min gn (m + 1) = gn :=
                    Nat.min_eq_left (le_trans hgn (Nat.le_succ m))
                  have h2 := ih gn (Nat.lt_succ_of_le hgn) gfs fn ps' st
                  rcases hg : preorderGo gn gfs fn ps' with ⟨g1, g2, g3, g4⟩
                  cases g1 with
                  | some e2 =>
                    simp only [walkFuel, hstat, hstep, hfn, hgo, wSeq,
                      preorderGo, preorderFuel, hmin, hg, List.append_eq]
                    rw [hkids, h1, hgo]
                    simp [wSeq, h2, hg]
                  | none =>
                    rcases hw2 : walkFuel g3 g4 fn st with ⟨w2e, w2t, w2f⟩
                    simp only [walkFuel, hstat, hstep, hfn, hgo, wSeq,
                      preorderGo, preorderFuel, hmin, hg, hw2, List.append_eq]
                    rw [hkids, h1, hgo]
                    simp [wSeq, h2, hg, hw2, List.append_assoc]

/-- C8: `Walk(name, fn)` is exactly the depth-first pre-order traversal: for
every fuel bound, state, visitor and root, the loop's outcome — the visited
trace, the final error and the final state — equals that of the recursive
reference traversal `preorderFuel`, which visits each directory before its
children, visits the children of each directory in ascending lexicographic
order (`sortBy strLe`) with `.` and `..` skipped, and stops at (and
returns) the first non-nil visitor error. -/
theorem walk_eq_preorder (n : Nat) (fs : FS) (fn : WalkFn) (name : String) :
    WalkF n fs name fn =
      ⟨(preorderFuel n fs fn name).err,
       (preorderFuel n fs fn name).trace,
       (preorderFuel n fs fn name).fs⟩ := by
  have h := walk_split n fs fn [name] []
  rw [show ([name] : List String) ++ [] = [name] from rfl] at h
  rw [WalkF, h]
  rcases hp : preorderFuel n fs fn name with ⟨e, t, n1, fs1⟩
  cases e with
  | some e => simp [preorderGo, hp, wSeq]
  | none => simp [preorderGo, hp, wSeq, walkFuel]

end PBox
